import Mathlib

/-!
Shallow embedding of `freestring` (`src/src/lib.rs`): the `FreeString` type,
an owned malloc-allocated null-terminated byte buffer.

Modelling conventions:
* A heap buffer is a `List Nat` of its bytes; a Rust `&[u8]` argument is a
  `List Nat`.  The raw pointer stored in a `FreeString` is identified with the
  byte contents of its allocation, since every claim is about those contents.
* `usize` arithmetic: lengths are `Nat`s; the one place the source does size
  arithmetic that can overflow (`bytes.len().checked_add(1)` in
  `from_bytes_unchecked`) is modelled against `USIZE_MAX`.  Rust slices can
  never exceed `isize::MAX < USIZE_MAX` bytes, so theorems about valid Rust
  inputs may assume `length < USIZE_MAX`.
* A Rust panic (`panic!`, `Option::expect`) is the `fatal` constructor of
  `CResult`; `malloc` is abstracted as always returning a fresh allocation
  (the out-of-memory `panic!("Out of memory")` path is also fatal and produces
  no value, so abstracting it does not affect any claim).  In the source,
  `malloc` is called with the wrapping sum `size + 1` before the `checked_add`
  runs, but on overflow the `checked_add` panic fires before
  `copy_nonoverlapping`, so no wrapped size is ever used to copy; the model
  therefore performs the overflow check before building the buffer.
-/

namespace FreeStringLib

/-- `usize::MAX` on the 64-bit targets the crate is built for. -/
def USIZE_MAX : Nat := 2 ^ 64 - 1

/-- `memchr::memchr(needle, haystack)`: index of the first occurrence of
`needle`, scanning left to right (lib.rs line 27 / 37). -/
def memchr (needle : Nat) : List Nat → Option Nat
  | [] => none
  | b :: rest => if b = needle then some 0 else (memchr needle rest).map (· + 1)

/-- `usize::checked_add` (lib.rs line 64). -/
def checked_add (a b : Nat) : Option Nat :=
  if a + b ≤ USIZE_MAX then some (a + b) else none

/-- `ptr::copy_nonoverlapping(src, dst, src.len())`: the destination
allocation with its first `src.length` bytes replaced by `src`
(lib.rs lines 66-68 and 95-97). -/
def copy_nonoverlapping (src dst : List Nat) : List Nat :=
  src ++ dst.drop src.length

/-- `struct FreeString { inner: *const u8, len: usize }` (lib.rs lines 11-14).
`inner` is the byte contents of the allocation the stored pointer points to. -/
structure FreeString where
  inner : List Nat
  len : Nat
deriving DecidableEq

/-- `pub struct NulError(usize)` (lib.rs line 16); the spec calls it
`ContainsNull(index)`. -/
structure NulError where
  idx : Nat
deriving DecidableEq

/-- `pub enum FromBytesWithNulError` (lib.rs lines 17-20). -/
inductive FromBytesWithNulError where
  | NotNulTerminated
  | InteriorNul (idx : Nat)
deriving DecidableEq

/-- Outcome of a Rust call that may return `Ok`, return `Err`, or panic. -/
inductive CResult (ε α : Type) where
  | ok (a : α)
  | err (e : ε)
  | fatal (msg : String)
deriving DecidableEq

/-- `FreeString::from_raw_parts(ptr, len)` (lib.rs lines 127-132). -/
def from_raw_parts (ptr : List Nat) (len : Nat) : FreeString :=
  { inner := ptr, len := len }

/-- `FreeString::from_bytes_unchecked` (lib.rs lines 54-77): malloc
`size + 1` bytes, `checked_add` the total length (panicking on overflow
before the copy), copy the input, write a terminating `0` at
`total_len - 1`. -/
def from_bytes_unchecked (bytes : List Nat) : CResult Empty FreeString :=
  match checked_add bytes.length 1 with
  | none => .fatal "Overflow while allocating"
  | some total_len =>
    let buf := copy_nonoverlapping bytes (List.replicate total_len 0)
    let buf := buf.set (total_len - 1) 0
    .ok (from_raw_parts buf total_len)

/-- `FreeString::new` (lib.rs lines 26-31). -/
def new (bytes : List Nat) : CResult NulError FreeString :=
  match memchr 0 bytes with
  | some i => .err ⟨i⟩
  | none =>
    match from_bytes_unchecked bytes with
    | .ok s => .ok s
    | .err e => nomatch e
    | .fatal msg => .fatal msg

/-- `FreeString::from_bytes_with_nul_unchecked` (lib.rs lines 85-101):
malloc `size` bytes, copy the input verbatim, keep `bytes.len()` as the
stored length. -/
def from_bytes_with_nul_unchecked (bytes : List Nat) : FreeString :=
  let buf := copy_nonoverlapping bytes (List.replicate bytes.length 0)
  from_raw_parts buf bytes.length

/-- `FreeString::from_bytes_with_nul` (lib.rs lines 35-46). -/
def from_bytes_with_nul (bytes : List Nat) :
    CResult FromBytesWithNulError FreeString :=
  match memchr 0 bytes with
  | some nul_pos =>
    if nul_pos + 1 ≠ bytes.length then .err (.InteriorNul nul_pos)
    else .ok (from_bytes_with_nul_unchecked bytes)
  | none => .err .NotNulTerminated

/-- `FreeString::as_raw` (lib.rs lines 105-107): the stored pointer,
identified with its allocation's bytes. -/
def as_raw (fs : FreeString) : List Nat :=
  fs.inner

/-- `libc::strlen`: bytes before the first `0` (total length if none,
which the caller's precondition rules out). -/
def strlen (ptr : List Nat) : Nat :=
  (memchr 0 ptr).getD ptr.length

/-- `FreeString::from_raw` (lib.rs lines 115-118): length is
`strlen(ptr) + 1`, including the NUL byte. -/
def from_raw (ptr : List Nat) : FreeString :=
  from_raw_parts ptr (strlen ptr + 1)

/-- `FreeString::as_slice` (lib.rs lines 135-137): reads `len` bytes from
the stored pointer. -/
def as_slice (fs : FreeString) : List Nat :=
  fs.inner.take fs.len

/-- `Deref::deref` to `ffi::CStr` (lib.rs lines 152-154):
`CStr::from_bytes_with_nul_unchecked(self.as_slice())` — the `CStr`'s
underlying bytes, terminator included. -/
def deref (fs : FreeString) : List Nat :=
  as_slice fs

/-- `CStr::to_bytes`: the C string's content without its terminator. -/
def cstr_to_bytes (cstr : List Nat) : List Nat :=
  cstr.dropLast

/-- The spec's §3 invariants 1-3 for a live `FreeString`. -/
def Invariant (fs : FreeString) : Prop :=
  1 ≤ fs.len ∧ fs.inner[fs.len - 1]? = some 0 ∧
    ∀ i ∈ List.range (fs.len - 1), fs.inner[i]? ≠ some 0

instance (fs : FreeString) : Decidable (Invariant fs) := by
  unfold Invariant; infer_instance

/-! ### Correctness of the `memchr` scan -/

theorem memchr_none_iff (needle : Nat) (l : List Nat) :
    memchr needle l = none ↔ ∀ x ∈ l, x ≠ needle := by
  induction l with
  | nil => simp [memchr]
  | cons b rest ih =>
    by_cases hb : b = needle
    · simp [memchr, hb]
    · simp [memchr, hb, ih]

theorem memchr_some_iff (needle : Nat) (l : List Nat) (i : Nat) :
    memchr needle l = some i ↔
      l[i]? = some needle ∧ ∀ j, j < i → l[j]? ≠ some needle := by
  induction l generalizing i with
  | nil => simp [memchr]
  | cons b rest ih =>
    cases i with
    | zero =>
      by_cases hb : b = needle <;> simp [memchr, hb, Option.map_eq_some']
    | succ n =>
      constructor
      · intro h
        by_cases hb : b = needle
        · simp [memchr, hb] at h
        · simp only [memchr, if_neg hb, Option.map_eq_some'] at h
          obtain ⟨m, hm, hmn⟩ := h
          have hm' : memchr needle rest = some n := by
            have hmn' : m = n := by omega
            rwa [hmn'] at hm
          obtain ⟨h1, h2⟩ := (ih n).mp hm'
          refine ⟨by simpa using h1, ?_⟩
          intro j hj
          cases j with
          | zero => simpa using hb
          | succ j' => simpa using h2 j' (by omega)
      · rintro ⟨h1, h2⟩
        have hb : b ≠ needle := by
          have := h2 0 (Nat.succ_pos n)
          simpa using this
        simp only [memchr, if_neg hb, Option.map_eq_some']
        refine ⟨n, (ih n).mpr ⟨by simpa using h1, ?_⟩, rfl⟩
        intro j hj
        have := h2 (j + 1) (by omega)
        simpa using this

/-! ### Unfolding lemmas for the constructors -/

theorem set_append_singleton (b : List Nat) (x y : Nat) :
    (b ++ [x]).set b.length y = b ++ [y] := by
  induction b with
  | nil => rfl
  | cons a rest ih => simp [List.set, ih]

theorem from_bytes_unchecked_ok (bytes : List Nat)
    (h : bytes.length + 1 ≤ USIZE_MAX) :
    from_bytes_unchecked bytes = .ok ⟨bytes ++ [0], bytes.length + 1⟩ := by
  have hbuf : copy_nonoverlapping bytes (List.replicate (bytes.length + 1) 0)
      = bytes ++ [0] := by
    simp [copy_nonoverlapping, List.drop_replicate]
  simp only [from_bytes_unchecked, checked_add, if_pos h, hbuf,
    Nat.add_sub_cancel, set_append_singleton, from_raw_parts]

theorem from_bytes_with_nul_unchecked_eq (bytes : List Nat) :
    from_bytes_with_nul_unchecked bytes = ⟨bytes, bytes.length⟩ := by
  simp [from_bytes_with_nul_unchecked, copy_nonoverlapping, from_raw_parts,
    List.drop_replicate]

theorem new_ok_eq (b : List Nat) (hfree : ∀ x ∈ b, x ≠ 0)
    (hlen : b.length + 1 ≤ USIZE_MAX) :
    new b = .ok ⟨b ++ [0], b.length + 1⟩ := by
  have hm : memchr 0 b = none := (memchr_none_iff 0 b).mpr hfree
  simp [new, hm, from_bytes_unchecked_ok b hlen]

theorem take_append_singleton_length (b : List Nat) (x : Nat) :
    (b ++ [x]).take (b.length + 1) = b ++ [x] := by
  rw [show b.length + 1 = (b ++ [x]).length by simp, List.take_length]

theorem getElem?_append_len (b : List Nat) (x : Nat) :
    (b ++ [x])[b.length]? = some x :=
  List.getElem?_concat_length b x

theorem getElem?_append_lt (b : List Nat) (x : Nat) (j : Nat)
    (h : j < b.length) : (b ++ [x])[j]? = b[j]? := by
  induction b generalizing j with
  | nil => simp at h
  | cons a rest ih =>
    cases j with
    | zero => simp
    | succ j' => simpa using ih j' (by simpa using h)

theorem memchr_append_nul (b : List Nat) (hfree : ∀ x ∈ b, x ≠ 0) :
    memchr 0 (b ++ [0]) = some b.length := by
  rw [memchr_some_iff]
  refine ⟨getElem?_append_len b 0, ?_⟩
  intro j hj
  rw [getElem?_append_lt b 0 j hj]
  intro hc
  exact hfree _ (List.getElem?_mem hc) rfl

theorem new_ok_inv (b : List Nat) (fs : FreeString) (h : new b = .ok fs) :
    fs = ⟨b ++ [0], b.length + 1⟩ ∧ (∀ x ∈ b, x ≠ 0) ∧
      b.length + 1 ≤ USIZE_MAX := by
  rcases hm : memchr 0 b with _ | i
  · have hfree := (memchr_none_iff 0 b).mp hm
    rcases hc : checked_add b.length 1 with _ | tl
    · exfalso
      simp only [new, hm, from_bytes_unchecked, hc] at h
      exact CResult.noConfusion h
    · have hle : b.length + 1 ≤ USIZE_MAX := by
        by_contra hgt
        rw [checked_add, if_neg hgt] at hc
        exact Option.noConfusion hc
      rw [new_ok_eq b hfree hle] at h
      injection h with h'
      exact ⟨h'.symm, hfree, hle⟩
  · exfalso
    simp only [new, hm] at h
    exact CResult.noConfusion h

theorem from_bytes_with_nul_ok_inv (b : List Nat) (fs : FreeString)
    (h : from_bytes_with_nul b = .ok fs) :
    fs = ⟨b, b.length⟩ ∧ memchr 0 b = some (b.length - 1) ∧ 1 ≤ b.length := by
  rcases hm : memchr 0 b with _ | p
  · exfalso
    simp only [from_bytes_with_nul, hm] at h
    exact CResult.noConfusion h
  · by_cases hp : p + 1 ≠ b.length
    · exfalso
      simp only [from_bytes_with_nul, hm, if_pos hp] at h
      exact CResult.noConfusion h
    · push_neg at hp
      have hred : from_bytes_with_nul b = .ok ⟨b, b.length⟩ := by
        simp only [from_bytes_with_nul, hm, from_bytes_with_nul_unchecked_eq]
        rw [if_neg (by omega)]
      rw [hred] at h
      injection h with h'
      refine ⟨h'.symm, ?_, by omega⟩
      simp only [Option.some.injEq]
      omega

/-! ### The claims -/

/-- C1: for every byte sequence `b` containing no null byte (a valid Rust
slice, so `b.length < USIZE_MAX`), `new(b)` succeeds and the byte-slice view
of the result is `b ++ [0x00]`; in particular `new([])` yields the one-byte
buffer `[0x00]`. -/
theorem new_no_nul_ok (b : List Nat) (hfree : ∀ x ∈ b, x ≠ 0)
    (hlen : b.length < USIZE_MAX) :
    ∃ fs, new b = .ok fs ∧ as_slice fs = b ++ [0] := by
  refine ⟨⟨b ++ [0], b.length + 1⟩, new_ok_eq b hfree (by omega), ?_⟩
  exact take_append_singleton_length b 0

theorem new_no_nul_ok_witness :
    ∃ fs, new [] = .ok fs ∧ as_slice fs = [] ++ [0] :=
  new_no_nul_ok [] (by decide) (by decide)

/-- C4: for every byte sequence `b` containing a null byte, whose first null
byte is at index `i`, `new(b)` fails with `NulError(i)` (the spec's
`ContainsNull(i)`); in particular no `FreeString` is produced. -/
theorem new_contains_nul_err (b : List Nat) (i : Nat)
    (hi : b[i]? = some 0) (hfirst : ∀ j ∈ List.range i, b[j]? ≠ some 0) :
    new b = .err ⟨i⟩ := by
  have hm : memchr 0 b = some i :=
    (memchr_some_iff 0 b i).mpr
      ⟨hi, fun j hj => hfirst j (List.mem_range.mpr hj)⟩
  simp [new, hm]

theorem new_contains_nul_err_witness :
    new [1, 0, 0] = .err ⟨1⟩ :=
  new_contains_nul_err [1, 0, 0] 1 (by decide) (by decide)

/-- C6: when the length-plus-one computation for the terminator would
overflow `usize` (in particular for an input of length `USIZE_MAX`),
`from_bytes_unchecked` panics (`fatal`, not a returned error) before the
input bytes are copied, and no `FreeString` is produced from a wrapped
(under-allocated) size. -/
theorem from_bytes_unchecked_overflow (b : List Nat)
    (h : USIZE_MAX < b.length + 1) :
    from_bytes_unchecked b = .fatal "Overflow while allocating" ∧
      ∀ fs, from_bytes_unchecked b ≠ .ok fs := by
  have hc : checked_add b.length 1 = none := by
    rw [checked_add, if_neg (by omega)]
  refine ⟨?_, ?_⟩
  · simp [from_bytes_unchecked, hc]
  · intro fs
    simp [from_bytes_unchecked, hc]

theorem from_bytes_unchecked_overflow_witness :
    from_bytes_unchecked (List.replicate USIZE_MAX 1) =
      .fatal "Overflow while allocating" ∧
      ∀ fs, from_bytes_unchecked (List.replicate USIZE_MAX 1) ≠ .ok fs :=
  from_bytes_unchecked_overflow (List.replicate USIZE_MAX 1)
    (by rw [List.length_replicate]; omega)

/-- C2: for every non-empty byte sequence `b` whose last byte is `0x00` and
which contains no other null byte, `from_bytes_with_nul(b)` succeeds, the
byte-slice view of the result is exactly `b` (no byte appended), and the
stored length is `len(b)`. -/
theorem from_bytes_with_nul_ok (b : List Nat) (hne : b ≠ [])
    (hlast : b.getLast? = some 0)
    (hmid : ∀ i ∈ List.range (b.length - 1), b[i]? ≠ some 0) :
    ∃ fs, from_bytes_with_nul b = .ok fs ∧ as_slice fs = b ∧
      fs.len = b.length := by
  have hlen : 1 ≤ b.length := by
    cases b with
    | nil => exact absurd rfl hne
    | cons x xs => simp
  have hidx : b[b.length - 1]? = some 0 := by
    rwa [List.getLast?_eq_getElem?] at hlast
  have hm : memchr 0 b = some (b.length - 1) := by
    rw [memchr_some_iff]
    exact ⟨hidx, fun j hj => hmid j (List.mem_range.mpr hj)⟩
  refine ⟨⟨b, b.length⟩, ?_, ?_, rfl⟩
  · simp only [from_bytes_with_nul, hm, from_bytes_with_nul_unchecked_eq]
    rw [if_neg (by omega)]
  · simp [as_slice]

theorem from_bytes_with_nul_ok_witness :
    ∃ fs, from_bytes_with_nul [9, 0] = .ok fs ∧ as_slice fs = [9, 0] ∧
      fs.len = ([9, 0] : List Nat).length :=
  from_bytes_with_nul_ok [9, 0] (by decide) (by decide) (by decide)

/-- C3: every value produced by a checked constructor (`new` or
`from_bytes_with_nul`) satisfies the stored invariants: length at least 1,
byte `0x00` at offset `length - 1`, and no `0x00` at any offset below
`length - 1`.  No operation of the embedding mutates `inner` or `len`
(`as_raw`, `as_slice` and `deref` are read-only), so the invariants hold for
the value's lifetime. -/
theorem checked_constructors_invariant (b : List Nat) (fs : FreeString)
    (h : new b = .ok fs ∨ from_bytes_with_nul b = .ok fs) :
    Invariant fs := by
  unfold Invariant
  rcases h with h | h
  · obtain ⟨rfl, hfree, _⟩ := new_ok_inv b fs h
    refine ⟨Nat.succ_le_succ (Nat.zero_le b.length), ?_, ?_⟩
    · show (b ++ [0])[b.length + 1 - 1]? = some 0
      rw [Nat.add_sub_cancel]
      exact getElem?_append_len b 0
    · intro i hi hc
      rw [List.mem_range, Nat.add_sub_cancel] at hi
      rw [show ((⟨b ++ [0], b.length + 1⟩ : FreeString).inner) = b ++ [0]
        from rfl, getElem?_append_lt b 0 i hi] at hc
      exact hfree _ (List.getElem?_mem hc) rfl
  · obtain ⟨rfl, hm, hlen⟩ := from_bytes_with_nul_ok_inv b fs h
    obtain ⟨h1, h2⟩ := (memchr_some_iff 0 b (b.length - 1)).mp hm
    exact ⟨hlen, h1, fun i hi => h2 i (List.mem_range.mp hi)⟩

theorem checked_constructors_invariant_witness : Invariant ⟨[7, 0], 2⟩ :=
  checked_constructors_invariant [7] ⟨[7, 0], 2⟩ (Or.inl (by decide))

/-- C7: round-trip — for every null-free byte sequence `b` (a valid Rust
slice), `new(b)` succeeds and the `Deref`-to-`CStr` view of the result is a
null-terminated string whose content excluding the terminator is `b`. -/
theorem new_cstr_roundtrip (b : List Nat) (hfree : ∀ x ∈ b, x ≠ 0)
    (hlen : b.length < USIZE_MAX) :
    ∃ fs, new b = .ok fs ∧ (deref fs).getLast? = some 0 ∧
      cstr_to_bytes (deref fs) = b := by
  refine ⟨⟨b ++ [0], b.length + 1⟩, new_ok_eq b hfree (by omega), ?_, ?_⟩
  · show ((b ++ [0]).take (b.length + 1)).getLast? = some 0
    rw [take_append_singleton_length]
    exact List.getLast?_concat b
  · show cstr_to_bytes ((b ++ [0]).take (b.length + 1)) = b
    rw [take_append_singleton_length, cstr_to_bytes, List.dropLast_concat]

theorem new_cstr_roundtrip_witness :
    ∃ fs, new [65] = .ok fs ∧ (deref fs).getLast? = some 0 ∧
      cstr_to_bytes (deref fs) = [65] :=
  new_cstr_roundtrip [65] (by decide) (by decide)

/-- C8: for every null-free byte sequence `b` (a valid Rust slice),
`from_raw` applied to the pointer returned by `new(b)`'s raw accessor
computes, via the strlen-based null scan plus one for the terminator, the
same stored length as the original construction, namely `len(b) + 1`. -/
theorem from_raw_as_raw_len (b : List Nat) (hfree : ∀ x ∈ b, x ≠ 0)
    (hlen : b.length < USIZE_MAX) :
    ∃ fs, new b = .ok fs ∧ (from_raw (as_raw fs)).len = fs.len ∧
      fs.len = b.length + 1 := by
  refine ⟨⟨b ++ [0], b.length + 1⟩, new_ok_eq b hfree (by omega), ?_, rfl⟩
  show (from_raw (as_raw ⟨b ++ [0], b.length + 1⟩)).len = b.length + 1
  simp [from_raw, from_raw_parts, as_raw, strlen, memchr_append_nul b hfree]

theorem from_raw_as_raw_len_witness :
    ∃ fs, new [7] = .ok fs ∧ (from_raw (as_raw fs)).len = fs.len ∧
      fs.len = ([7] : List Nat).length + 1 :=
  from_raw_as_raw_len [7] (by decide) (by decide)

/-- C10: for every byte sequence `b` with two or more null bytes whose first
null byte sits at an index `i` other than the final one,
`from_bytes_with_nul(b)` fails with `InteriorNul(i)` — the reported index is
specifically that of the first null byte. -/
theorem interior_nul_reports_first (b : List Nat) (i : Nat)
    (hi : b[i]? = some 0) (hfirst : ∀ j ∈ List.range i, b[j]? ≠ some 0)
    (hnotlast : i + 1 ≠ b.length)
    (_hmore : ∃ k, k ≠ i ∧ b[k]? = some 0) :
    from_bytes_with_nul b = .err (.InteriorNul i) := by
  have hm : memchr 0 b = some i :=
    (memchr_some_iff 0 b i).mpr
      ⟨hi, fun j hj => hfirst j (List.mem_range.mpr hj)⟩
  simp only [from_bytes_with_nul, hm]
  rw [if_pos hnotlast]

theorem interior_nul_reports_first_witness :
    from_bytes_with_nul [0, 0] = .err (.InteriorNul 0) :=
  interior_nul_reports_first [0, 0] 0 (by decide) (by decide) (by decide)
    ⟨1, by decide, by decide⟩

/-- C5: `from_bytes_with_nul(b)` fails with `NotNulTerminated` exactly when
`b` contains no null byte at all; it fails with `InteriorNul(i)` exactly when
`b` contains a null byte at an index `i` with `i + 1 ≠ len(b)` (any reported
index is such an index, and whenever such an index exists an `InteriorNul`
error is returned); in all other cases it succeeds. -/
theorem from_bytes_with_nul_error_spec (b : List Nat) :
    (from_bytes_with_nul b = .err .NotNulTerminated ↔ ∀ x ∈ b, x ≠ 0) ∧
      (∀ i, from_bytes_with_nul b = .err (.InteriorNul i) →
        b[i]? = some 0 ∧ i + 1 ≠ b.length) ∧
      ((∃ i : Nat, b[i]? = some 0 ∧ i + 1 ≠ b.length) →
        ∃ i, from_bytes_with_nul b = .err (.InteriorNul i)) ∧
      ((∃ i : Nat, b[i]? = some 0) →
        (∀ i : Nat, b[i]? = some 0 → i + 1 = b.length) →
        ∃ fs, from_bytes_with_nul b = .ok fs) := by
  rcases hm : memchr 0 b with _ | p
  · have hfree := (memchr_none_iff 0 b).mp hm
    have hres : from_bytes_with_nul b = .err .NotNulTerminated := by
      simp only [from_bytes_with_nul, hm]
    refine ⟨⟨fun _ => hfree, fun _ => hres⟩, ?_, ?_, ?_⟩
    · intro i hco
      rw [hres] at hco
      simp at hco
    · rintro ⟨i, hi, _⟩
      exact absurd rfl (hfree 0 (List.getElem?_mem hi))
    · rintro ⟨i, hi⟩ _
      exact absurd rfl (hfree 0 (List.getElem?_mem hi))
  · obtain ⟨hp0, hpfirst⟩ := (memchr_some_iff 0 b p).mp hm
    by_cases hp : p + 1 = b.length
    · have hres : from_bytes_with_nul b = .ok ⟨b, b.length⟩ := by
        simp only [from_bytes_with_nul, hm, from_bytes_with_nul_unchecked_eq]
        rw [if_neg (by omega)]
      refine ⟨⟨?_, ?_⟩, ?_, ?_, ?_⟩
      · rw [hres]
        intro hco
        simp at hco
      · intro hfree
        exact absurd rfl (hfree 0 (List.getElem?_mem hp0))
      · intro i hco
        rw [hres] at hco
        simp at hco
      · rintro ⟨i, hi0, hine⟩
        exfalso
        obtain ⟨hlt, _⟩ := List.getElem?_eq_some_iff.mp hi0
        have hip : p ≤ i := by
          by_contra hgt
          exact hpfirst i (by omega) hi0
        omega
      · intro _ _
        exact ⟨⟨b, b.length⟩, hres⟩
    · have hres : from_bytes_with_nul b = .err (.InteriorNul p) := by
        simp only [from_bytes_with_nul, hm]
        rw [if_pos hp]
      refine ⟨⟨?_, ?_⟩, ?_, ?_, ?_⟩
      · rw [hres]
        intro hco
        simp at hco
      · intro hfree
        exact absurd rfl (hfree 0 (List.getElem?_mem hp0))
      · intro i hco
        rw [hres] at hco
        have hpi : p = i := by simpa using hco
        subst hpi
        exact ⟨hp0, hp⟩
      · intro _
        exact ⟨p, hres⟩
      · rintro ⟨i, hi⟩ hall
        exact absurd (hall p hp0) hp

theorem from_bytes_with_nul_error_spec_witness :
    from_bytes_with_nul [1] = .err .NotNulTerminated :=
  (from_bytes_with_nul_error_spec [1]).1.mpr (by decide)

end FreeStringLib
